import Mathlib

/-!
Verification of diffprivlib's differentially private tools against their
natural-language specification.

The development shallowly embeds the repository's Python sources:
* `src/diffprivlib/tools/quantiles.py` (`quantile`),
* `src/diffprivlib/tools/utils.py` (`mean`, `var`, `std`),
* `src/diffprivlib/mechanisms/transforms/roundedinteger.py`
  (`RoundedInteger.post_transform`).

Floating point values are modelled as exact rationals, with an explicit
NaN marker where NaN propagation matters (the quantile path).  Randomness
is passed explicitly: each mechanism invocation receives its random draws
as arguments, so that properties quantified over "all random draws" become
universally quantified theorems.  Components of the library that the
sources only call (the mechanism classes, the budget accountant and the
bounds validation helpers) are modelled from the specification; each such
definition is marked `Modelled from the spec:` in its doc comment.
-/

namespace Diffprivlib

/-- A floating-point datum: either a finite number (modelled exactly as a
rational) or the NaN marker. -/
inductive DVal where
  | num (x : ℚ)
  | nan
deriving DecidableEq

/-- `True` exactly on the NaN marker (numpy's `np.isnan`). -/
def DVal.isNan : DVal → Bool
  | DVal.num _ => false
  | DVal.nan => true

/-- Numpy's sort order on floats as a Boolean comparison: numbers compare
by value and NaN sorts after every number (as `np.sort` places NaNs last). -/
def dleB : DVal → DVal → Bool
  | DVal.num x, DVal.num y => decide (x ≤ y)
  | DVal.num _, DVal.nan => true
  | DVal.nan, DVal.num _ => false
  | DVal.nan, DVal.nan => true

/-- The sort order on data values as a proposition. -/
def dLE (a b : DVal) : Prop := dleB a b = true

instance : DecidableRel dLE := fun a b => by unfold dLE; infer_instance

instance : IsTotal DVal dLE := by
  constructor
  intro a b
  cases a <;> cases b <;> simp only [dLE, dleB, decide_eq_true_eq] <;> simp [le_total]

instance : IsTrans DVal dLE := by
  constructor
  intro a b c hab hbc
  cases a <;> cases b <;> cases c <;> simp_all [dLE, dleB]
  exact le_trans hab hbc

/-- Subtraction on data values; NaN propagates (IEEE semantics). -/
def dsub : DVal → DVal → DVal
  | DVal.num x, DVal.num y => DVal.num (x - y)
  | _, _ => DVal.nan

/-- Multiplication on data values; NaN propagates. -/
def dmul : DVal → DVal → DVal
  | DVal.num x, DVal.num y => DVal.num (x * y)
  | _, _ => DVal.nan

/-- Addition on data values; NaN propagates. -/
def dadd : DVal → DVal → DVal
  | DVal.num x, DVal.num y => DVal.num (x + y)
  | _, _ => DVal.nan

/-- Modelled from the spec: `clip_to_bounds` (diffprivlib/validation.py is not
among the sources) clips every value of the array into `[lower, upper]`,
following numpy's `clip` (`min(upper, max(lower, x))`); NaN is left as NaN. -/
def dclip (lo hi : ℚ) : DVal → DVal
  | DVal.num x => DVal.num (min hi (max lo x))
  | DVal.nan => DVal.nan

/-- `np.diff`: the list of differences of consecutive elements,
`l[i+1] - l[i]` for each adjacent pair. -/
def dDiff : List DVal → List DVal
  | [] => []
  | [_] => []
  | a :: b :: t => dsub b a :: dDiff (b :: t)

/-- Minimum of two data values; NaN propagates (as `np.min` does). -/
def dmin2 : DVal → DVal → DVal
  | DVal.num x, DVal.num y => DVal.num (min x y)
  | _, _ => DVal.nan

/-- Maximum of two data values; NaN propagates. -/
def dmax2 : DVal → DVal → DVal
  | DVal.num x, DVal.num y => DVal.num (max x y)
  | _, _ => DVal.nan

/-- `np.min` over a list of data values (`none` when the list is empty,
where numpy raises). -/
def dminList : List DVal → Option DVal
  | [] => none
  | a :: t => some (t.foldl dmin2 a)

/-- `np.max` over a list of data values. -/
def dmaxList : List DVal → Option DVal
  | [] => none
  | a :: t => some (t.foldl dmax2 a)

/-- Modelled from the spec: the budget accountant (diffprivlib/accountant.py is
not among the sources) is a ledger of `(epsilon, delta)` spends with optional
caps; `total` is the basic additive composition of the ledger. -/
structure BudgetAccountant where
  epsilonCap : Option ℚ
  deltaCap : Option ℚ
  spent : List (ℚ × ℚ)
deriving DecidableEq

/-- Basic (additive) composition of all recorded spends. -/
def BudgetAccountant.total (a : BudgetAccountant) : ℚ × ℚ :=
  (a.spent.foldr (fun p s => p.1 + s) 0, a.spent.foldr (fun p s => p.2 + s) 0)

/-- Modelled from the spec: `check(epsilon, delta)` is pure validation — it
succeeds iff recording the spend would not push `total` beyond the caps. -/
def BudgetAccountant.checkOk (a : BudgetAccountant) (eps delta : ℚ) : Bool :=
  (match a.epsilonCap with
   | none => true
   | some cap => decide (a.total.1 + eps ≤ cap)) &&
  (match a.deltaCap with
   | none => true
   | some cap => decide (a.total.2 + delta ≤ cap))

/-- Modelled from the spec: `spend(epsilon, delta)` appends the spend to the
ledger. -/
def BudgetAccountant.spend (a : BudgetAccountant) (eps delta : ℚ) : BudgetAccountant :=
  ⟨a.epsilonCap, a.deltaCap, a.spent ++ [(eps, delta)]⟩

/-- A fresh accountant with no caps and an empty ledger (the lazily created
process default). -/
def BudgetAccountant.fresh : BudgetAccountant := ⟨none, none, []⟩

/-- Observable interactions of an estimator call: accountant `check`,
accountant `spend`, and a mechanism's `randomise`. -/
inductive Event where
  | check (eps delta : ℚ)
  | spend (eps delta : ℚ)
  | randomise
deriving DecidableEq

/-- `True` exactly on accountant `check` events. -/
def Event.isCheck : Event → Bool
  | Event.check _ _ => true
  | _ => false

/-- `True` exactly on accountant `spend` events. -/
def Event.isSpend : Event → Bool
  | Event.spend _ _ => true
  | _ => false

/-- Errors raised by the embedded estimators. -/
inductive QErr where
  | valueError
  | budgetError
deriving DecidableEq

/-- The Exponential mechanism's configuration, exactly as `quantile`
constructs it (quantiles.py lines 107–108): privacy parameter, sensitivity,
utility scores and measure weights. -/
structure Exponential where
  epsilon : ℚ
  sensitivity : ℚ
  utility : List ℚ
  measure : List DVal
deriving DecidableEq

/-- Modelled from the spec: `Exponential.randomise` (the mechanism class is
not among the sources) selects one index of the candidate list, with
probability proportional to the exponential weights.  Which index is drawn
depends only on the mechanism's random source; the draw is modelled by an
arbitrary `choice` reduced to a valid candidate index, so that properties
quantified over all draws cover every index the mechanism can return. -/
def Exponential.randomise (m : Exponential) (choice : Nat) : Nat :=
  choice % m.utility.length

/-- The utility scores `quantile` passes to the Exponential mechanism
(quantiles.py line 107): `-|i - q*k|` for `i = 0, …, k`. -/
def utilityList (q : ℚ) (k : Nat) : List ℚ :=
  (List.range (k + 1)).map (fun (i : ℕ) => -|(i : ℚ) - q * (k : ℚ)|)

/-- Result of the single-quantile body: the events it performed, the
mechanisms it constructed, its result and the final state of the accountant
it used. -/
structure CoreOut where
  events : List Event
  mechs : List Exponential
  result : Except QErr DVal
  acc : BudgetAccountant

/-- The single-quantile body of `quantile` (quantiles.py lines 88–113):
accountant `check`, quantile-range validation, clipping, appending the two
bounds, sorting, NaN propagation, Exponential mechanism construction and the
final uniform draw within the selected gap.  `choice` is the mechanism's
random draw and `u ∈ [0, 1)` the final uniform variate. -/
def quantileCore (array : List DVal) (q epsilon lo hi : ℚ)
    (acc : BudgetAccountant) (choice : Nat) (u : ℚ) : CoreOut :=
  if acc.checkOk epsilon 0 then
    if 0 ≤ q ∧ q ≤ 1 then
      let clipped := array.map (dclip lo hi)
      let k := clipped.length
      let sorted := List.insertionSort dLE (clipped ++ [DVal.num lo, DVal.num hi])
      let sizes := dDiff sorted
      if sizes.any DVal.isNan then
        ⟨[Event.check epsilon 0], [], Except.ok DVal.nan, acc⟩
      else
        let mech : Exponential := ⟨epsilon, 1, utilityList q k, sizes⟩
        let idx := mech.randomise choice
        ⟨[Event.check epsilon 0, Event.randomise, Event.spend epsilon 0], [mech],
          Except.ok (dadd (dmul (DVal.num u)
            (dsub (sorted.getD (idx + 1) DVal.nan) (sorted.getD idx DVal.nan)))
            (sorted.getD idx DVal.nan)),
          acc.spend epsilon 0⟩
    else
      ⟨[Event.check epsilon 0], [], Except.error QErr.valueError, acc⟩
  else
    ⟨[Event.check epsilon 0], [], Except.error QErr.budgetError, acc⟩

/-- Result of a full `quantile` call: events, constructed mechanisms, the
result (a list of values; a singleton for a scalar quantile), the final state
of the explicitly supplied accountant (if any) and of the default
accountant. -/
structure QuantOut where
  events : List Event
  mechs : List Exponential
  result : Except QErr (List DVal)
  expAcc : Option BudgetAccountant
  defAcc : BudgetAccountant

/-- `BudgetAccountant.load_default` composed with the single-quantile body:
the explicitly supplied accountant is used when present, otherwise the
default accountant (quantiles.py line 88). -/
def quantileResolved (array : List DVal) (q epsilon lo hi : ℚ)
    (accOpt : Option BudgetAccountant) (defaultAcc : BudgetAccountant)
    (choice : Nat) (u : ℚ) : QuantOut :=
  match accOpt with
  | some acc =>
      let r := quantileCore array q epsilon lo hi acc choice u
      ⟨r.events, r.mechs, r.result.map (fun v => [v]), some r.acc, defaultAcc⟩
  | none =>
      let r := quantileCore array q epsilon lo hi defaultAcc choice u
      ⟨r.events, r.mechs, r.result.map (fun v => [v]), none, r.acc⟩

/-- Modelled from the spec: bounds resolution (quantiles.py lines 74–80).
When `bounds` is not supplied it is derived, with a privacy-leak warning,
from the data's empirical min and max; `check_bounds`
(diffprivlib/validation.py, not among the sources) then validates that the
bounds are ordered finite numbers, failing with a value error otherwise. -/
def resolveBounds (array : List DVal) (boundsOpt : Option (ℚ × ℚ)) :
    Except QErr (ℚ × ℚ) :=
  match boundsOpt with
  | some (lo, hi) =>
      if lo ≤ hi then Except.ok (lo, hi) else Except.error QErr.valueError
  | none =>
      match dminList array, dmaxList array with
      | some (DVal.num lo), some (DVal.num hi) =>
          if lo ≤ hi then Except.ok (lo, hi) else Except.error QErr.valueError
      | _, _ => Except.error QErr.valueError

/-- The multi-quantile recursion (quantiles.py lines 84–86): one recursive
single-quantile call per requested quantile, each with the already divided
budget `epsSub`, the resolved bounds, and — as in the source, which omits
the `accountant` argument in the recursive call — no explicit accountant,
so every sub-query resolves and charges the default accountant. -/
def quantileMulti (array : List DVal) (epsSub lo hi : ℚ) :
    List ℚ → BudgetAccountant → List (Nat × ℚ) →
    List Event × List Exponential × Except QErr (List DVal) × BudgetAccountant
  | [], acc, _ => ([], [], Except.ok [], acc)
  | q :: rest, acc, draws =>
      let d := draws.getD 0 (0, 0)
      let r := quantileResolved array q epsSub lo hi none acc d.1 d.2
      match r.result with
      | Except.error e => (r.events, r.mechs, Except.error e, r.defAcc)
      | Except.ok vs =>
          let r2 := quantileMulti array epsSub lo hi rest r.defAcc (draws.drop 1)
          (r.events ++ r2.1, r.mechs ++ r2.2.1,
           (r2.2.2.1).map (fun ws => vs ++ ws), r2.2.2.2)

/-- The full embedded `quantile` (quantiles.py lines 31–113): bounds
resolution and validation, then either the single-quantile body or the
even-budget-split recursion over several quantiles.  `draws` supplies one
`(choice, u)` pair of random draws per requested quantile. -/
def quantileCall (array : List DVal) (qs : List ℚ) (epsilon : ℚ)
    (boundsOpt : Option (ℚ × ℚ)) (accOpt : Option BudgetAccountant)
    (defaultAcc : BudgetAccountant) (draws : List (Nat × ℚ)) : QuantOut :=
  match resolveBounds array boundsOpt with
  | Except.error e => ⟨[], [], Except.error e, accOpt, defaultAcc⟩
  | Except.ok (lo, hi) =>
      match qs with
      | [] => ⟨[], [], Except.error QErr.valueError, accOpt, defaultAcc⟩
      | [q] =>
          let d := draws.getD 0 (0, 0)
          quantileResolved array q epsilon lo hi accOpt defaultAcc d.1 d.2
      | _ :: _ :: _ =>
          let r := quantileMulti array (epsilon / (qs.length : ℚ)) lo hi qs
            defaultAcc draws
          ⟨r.1, r.2.1, r.2.2.1, accOpt, r.2.2.2⟩

/-! ### mean, var, std (src/diffprivlib/tools/utils.py)

The estimators of utils.py operate on clean numeric arrays; they are embedded
over exact rationals.  A (possibly 2-dimensional) numpy array is a list of
rows; the reduction `axis` is `none` (reduce everything, numpy scalar
result), `0` (reduce over rows, ndarray result) or `1` (reduce over columns,
ndarray result).  Laplace noise is passed explicitly per cell through the
`noise` list. -/

/-- A 2-dimensional numpy array: a list of rows. -/
abbrev Matrix := List (List ℚ)

/-- A numpy reduction result: either a numpy scalar (`axis=None`) or a
1-dimensional ndarray (integer `axis`). -/
inductive NPVal where
  | scalar (x : ℚ)
  | arr (xs : List ℚ)
deriving DecidableEq

/-- The `range` argument: a real number (`isinstance(range, Real)`) or an
array-like of per-cell ranges. -/
inductive RangeArg where
  | real (r : ℚ)
  | arrLike (rs : List ℚ)
deriving DecidableEq

/-- The reduction axis for a 2-dimensional array: `None`, `0` or `1`. -/
inductive Axis where
  | all
  | axis0
  | axis1
deriving DecidableEq

/-- Value errors raised by `mean`/`var` input validation. -/
inductive VErr where
  | rangeNotPositive
  | shapeMismatch
deriving DecidableEq

/-- The kind and domain of a constructed mechanism; the bounded-domain
variant records its `(lower, upper)` bounds, `none` standing for `+∞`. -/
inductive MechKind where
  | laplace
  | laplaceBoundedDomain (lower : ℚ) (upper : Option ℚ)
deriving DecidableEq

/-- The configuration of one mechanism instance as built by the fluent
`set_epsilon`/`set_sensitivity`/`set_bounds` chain in `mean`/`var`. -/
structure MechRec where
  kind : MechKind
  epsilon : ℚ
  sensitivity : ℚ
deriving DecidableEq

/-- Result of an embedded `mean`/`var` call: observable events (mechanism
invocations; utils.py performs no accountant calls), the configurations of
all constructed mechanisms, and the result or validation error. -/
structure MVOut where
  events : List Event
  mechs : List MechRec
  result : Except VErr NPVal

/-- Modelled from the spec: `Laplace.randomise` (the mechanism class is not
among the sources) adds one zero-mean Laplace-distributed sample to the
value; the drawn sample `d` is passed explicitly. -/
def Laplace.randomise (v d : ℚ) : ℚ := v + d

/-- Modelled from the spec: `LaplaceBoundedDomain.randomise` produces a value
inside `[lower, upper]` (upper `none` = `+∞`) via the boundary-aware
truncated-Laplace construction; the sampling is abstracted as a function of
the true value and the explicit draw `d`, constrained to the domain. -/
def LaplaceBoundedDomain.randomise (lower : ℚ) (upper : Option ℚ) (v d : ℚ) : ℚ :=
  match upper with
  | none => max lower (v + d)
  | some up => max lower (min up (v + d))

/-- Number of columns of the array (`a.shape[1]`). -/
def ncols (a : Matrix) : Nat := (a.headD []).length

/-- `num_datapoints` (utils.py lines 47–59): the product of the shape entries
of the reduced axes. -/
def numDatapoints (a : Matrix) : Axis → Nat
  | Axis.all => a.length * ncols a
  | Axis.axis0 => a.length
  | Axis.axis1 => ncols a

/-- Sum of a list of rationals. -/
def rowSum (xs : List ℚ) : ℚ := xs.foldr (· + ·) 0

/-- Mean of a list of rationals (junk `0` denominator on the empty list,
where numpy warns and yields NaN). -/
def rowMean (xs : List ℚ) : ℚ := rowSum xs / (xs.length : ℚ)

/-- Maximum of a list of rationals (junk on the empty list, where numpy
raises). -/
def rowMax : List ℚ → ℚ
  | [] => 0
  | x :: t => t.foldl max x

/-- Minimum of a list of rationals. -/
def rowMin : List ℚ → ℚ
  | [] => 0
  | x :: t => t.foldl min x

/-- Population variance with `ddof` correction of a list of rationals. -/
def rowVar (ddof : Nat) (xs : List ℚ) : ℚ :=
  rowSum (xs.map (fun x => (x - rowMean xs) ^ 2)) / ((xs.length : ℚ) - (ddof : ℚ))

/-- `np.mean(a, axis=axis)`. -/
def npMean (a : Matrix) : Axis → NPVal
  | Axis.all => NPVal.scalar (rowMean a.flatten)
  | Axis.axis0 => NPVal.arr (a.transpose.map rowMean)
  | Axis.axis1 => NPVal.arr (a.map rowMean)

/-- `np.var(a, axis=axis, ddof=ddof)`. -/
def npVar (a : Matrix) (ddof : Nat) : Axis → NPVal
  | Axis.all => NPVal.scalar (rowVar ddof a.flatten)
  | Axis.axis0 => NPVal.arr (a.transpose.map (rowVar ddof))
  | Axis.axis1 => NPVal.arr (a.map (rowVar ddof))

/-- `np.max(a, axis=axis)`. -/
def npMax (a : Matrix) : Axis → NPVal
  | Axis.all => NPVal.scalar (rowMax a.flatten)
  | Axis.axis0 => NPVal.arr (a.transpose.map rowMax)
  | Axis.axis1 => NPVal.arr (a.map rowMax)

/-- `np.min(a, axis=axis)`. -/
def npMin (a : Matrix) : Axis → NPVal
  | Axis.all => NPVal.scalar (rowMin a.flatten)
  | Axis.axis0 => NPVal.arr (a.transpose.map rowMin)
  | Axis.axis1 => NPVal.arr (a.map rowMin)

/-- The range derived from the data when `range=None` (utils.py lines 69 and
136): `np.maximum(np.max(a, axis) - np.min(a, axis), 1e-5)`, elementwise. -/
def derivedRanges (a : Matrix) (axis : Axis) : NPVal :=
  match npMax a axis, npMin a axis with
  | NPVal.scalar mx, NPVal.scalar mn => NPVal.scalar (max (mx - mn) (1 / 100000))
  | NPVal.arr mxs, NPVal.arr mns =>
      NPVal.arr ((mxs.zip mns).map (fun p => max (p.1 - p.2) (1 / 100000)))
  | _, _ => NPVal.scalar 0

/-- Resolution of the `range` argument (utils.py lines 63–73): derive from
the data when absent (with a privacy-leak warning), broadcast a real to the
reduction's shape, or take the given array. -/
def resolveRanges (a : Matrix) (axis : Axis) (actual : NPVal) :
    Option RangeArg → NPVal
  | none => derivedRanges a axis
  | some (RangeArg.real r) =>
      match actual with
      | NPVal.scalar _ => NPVal.scalar r
      | NPVal.arr xs => NPVal.arr (xs.map (fun _ => r))
  | some (RangeArg.arrLike rs) => NPVal.arr rs

/-- The numpy shape of a reduction result: `none` for a scalar, otherwise
the 1-dimensional length. -/
def NPVal.shapeArr : NPVal → Option Nat
  | NPVal.scalar _ => none
  | NPVal.arr xs => some xs.length

/-- `(ranges > 0).all()`. -/
def NPVal.allPos : NPVal → Bool
  | NPVal.scalar x => decide (0 < x)
  | NPVal.arr xs => xs.all (fun x => decide (0 < x))

/-- `np.ravel(ranges)[0]`. -/
def NPVal.ravelHead : NPVal → ℚ
  | NPVal.scalar x => x
  | NPVal.arr xs => xs.headD 0

/-- The embedded `mean` (utils.py lines 33–96): computes the true mean,
resolves and validates `range`, then adds per-cell Laplace noise with
sensitivity `range / num_datapoints` — one mechanism per cell on the
ndarray branch, a single mechanism on the scalar branch. -/
def mean (a : Matrix) (epsilon : ℚ) (rangeArg : Option RangeArg) (axis : Axis)
    (noise : List ℚ) : MVOut :=
  let n : ℚ := (numDatapoints a axis : ℚ)
  let actual := npMean a axis
  let ranges := resolveRanges a axis actual rangeArg
  if ranges.allPos = false then ⟨[], [], Except.error VErr.rangeNotPositive⟩
  else if (decide (ranges.shapeArr = actual.shapeArr)) = false then
    ⟨[], [], Except.error VErr.shapeMismatch⟩
  else
    match actual, ranges with
    | NPVal.arr vs, NPVal.arr rs =>
        let mechs := rs.map (fun r => MechRec.mk MechKind.laplace epsilon (r / n))
        let outs := vs.mapIdx (fun i v => Laplace.randomise v (noise.getD i 0))
        ⟨mechs.map (fun _ => Event.randomise), mechs, Except.ok (NPVal.arr outs)⟩
    | NPVal.scalar v, rg =>
        let mech := MechRec.mk MechKind.laplace epsilon (rg.ravelHead / n)
        ⟨[Event.randomise], [mech],
          Except.ok (NPVal.scalar (Laplace.randomise v (noise.getD 0 0)))⟩
    | NPVal.arr _, NPVal.scalar _ => ⟨[], [], Except.error VErr.shapeMismatch⟩

/-- The embedded `var` (utils.py lines 99–165): computes the true variance,
resolves and validates `range`, then randomises each cell with a
bounded-domain Laplace mechanism on `[0, ∞)`.  The ndarray branch sets
sensitivity `(range/n)² · (n-1)` (line 154); the scalar branch sets
sensitivity `range² / n` (line 163), exactly as the source does. -/
def var (a : Matrix) (epsilon : ℚ) (rangeArg : Option RangeArg) (axis : Axis)
    (ddof : Nat) (noise : List ℚ) : MVOut :=
  let n : ℚ := (numDatapoints a axis : ℚ)
  let actual := npVar a ddof axis
  let ranges := resolveRanges a axis actual rangeArg
  if ranges.allPos = false then ⟨[], [], Except.error VErr.rangeNotPositive⟩
  else if (decide (ranges.shapeArr = actual.shapeArr)) = false then
    ⟨[], [], Except.error VErr.shapeMismatch⟩
  else
    match actual, ranges with
    | NPVal.arr vs, NPVal.arr rs =>
        let mechs := rs.map (fun r =>
          MechRec.mk (MechKind.laplaceBoundedDomain 0 none) epsilon
            ((r / n) ^ 2 * (n - 1)))
        let outs := vs.mapIdx (fun i v =>
          LaplaceBoundedDomain.randomise 0 none v (noise.getD i 0))
        ⟨mechs.map (fun _ => Event.randomise), mechs, Except.ok (NPVal.arr outs)⟩
    | NPVal.scalar v, rg =>
        let mech := MechRec.mk (MechKind.laplaceBoundedDomain 0 none) epsilon
          (rg.ravelHead ^ 2 / n)
        ⟨[Event.randomise], [mech],
          Except.ok (NPVal.scalar
            (LaplaceBoundedDomain.randomise 0 none v (noise.getD 0 0)))⟩
    | NPVal.arr _, NPVal.scalar _ => ⟨[], [], Except.error VErr.shapeMismatch⟩

/-- A real-valued reduction result, for the output of `std`. -/
inductive NPValR where
  | scalar (x : ℝ)
  | arr (xs : List ℝ)

/-- Elementwise real square root of a rational reduction result. -/
noncomputable def NPVal.sqrtR : NPVal → NPValR
  | NPVal.scalar x => NPValR.scalar (Real.sqrt (x : ℝ))
  | NPVal.arr xs => NPValR.arr (xs.map (fun x => Real.sqrt (x : ℝ)))

/-- The embedded `std` (utils.py lines 168–191): calls `var` with the very
same arguments and draws, then takes the square root of the result (the
ndarray branch elementwise, the scalar branch directly), constructing no
further mechanism and performing no further event. -/
noncomputable def std (a : Matrix) (epsilon : ℚ) (rangeArg : Option RangeArg)
    (axis : Axis) (ddof : Nat) (noise : List ℚ) :
    List Event × List MechRec × Except VErr NPValR :=
  let ret := var a epsilon rangeArg axis ddof noise
  (ret.events, ret.mechs,
    match ret.result with
    | Except.error e => Except.error e
    | Except.ok (NPVal.arr vs) =>
        Except.ok (NPValR.arr (vs.map (fun x => Real.sqrt (x : ℝ))))
    | Except.ok (NPVal.scalar v) => Except.ok (NPValR.scalar (Real.sqrt (v : ℝ))))

/-! ### RoundedInteger (src/diffprivlib/mechanisms/transforms/roundedinteger.py) -/

/-- Python's builtin `round` on a real value: round half to even ("banker's
rounding"), as used by `RoundedInteger.post_transform` (roundedinteger.py
line 37, `int(round(value))`). -/
def pyRound (x : ℚ) : ℤ :=
  if x - (Int.floor x : ℚ) < 1 / 2 then Int.floor x
  else if 1 / 2 < x - (Int.floor x : ℚ) then Int.floor x + 1
  else if Int.floor x % 2 = 0 then Int.floor x else Int.floor x + 1

/-- The embedded `RoundedInteger.post_transform` (roundedinteger.py lines
28–37): a pure function returning the input rounded to the nearest integer
(ties to even, Python's `round`). -/
def RoundedInteger.post_transform (value : ℚ) : ℤ := pyRound value

/-! ### Helper lemmas -/

/-- An accountant with no caps passes every budget check. -/
theorem checkOk_of_no_caps (spent : List (ℚ × ℚ)) (eps delta : ℚ) :
    (BudgetAccountant.mk none none spent).checkOk eps delta = true := rfl

/-- `np.diff` shortens a list by one. -/
theorem dDiff_length : ∀ l : List DVal, (dDiff l).length = l.length - 1
  | [] => rfl
  | [_] => rfl
  | _ :: b :: t => by
      have ih := dDiff_length (b :: t)
      simp only [dDiff, List.length_cons] at ih ⊢
      omega

/-- `np.diff` at index `i` is the difference of the elements at `i+1` and
`i`. -/
theorem dDiff_getD : ∀ (l : List DVal) (i : ℕ), i + 1 < l.length →
    (dDiff l).getD i DVal.nan =
      dsub (l.getD (i + 1) DVal.nan) (l.getD i DVal.nan)
  | [], i, h => by simp at h
  | [_], i, h => by simp at h
  | _ :: b :: t, 0, _ => rfl
  | a :: b :: t, i + 1, h => by
      have ih := dDiff_getD (b :: t) i (by simpa using Nat.lt_of_succ_lt_succ h)
      simpa [dDiff] using ih

/-- If no element of a list is NaN, no difference of consecutive elements
is NaN. -/
theorem dDiff_no_nan : ∀ l : List DVal, (∀ v ∈ l, v.isNan = false) →
    (dDiff l).any DVal.isNan = false
  | [], _ => rfl
  | [_], _ => rfl
  | a :: b :: t, h => by
      have ha := h a (by simp)
      have hb := h b (by simp)
      have ih := dDiff_no_nan (b :: t) (fun v hv => h v (List.mem_cons_of_mem a hv))
      cases a <;> cases b <;> simp_all [dDiff, dsub, DVal.isNan]

/-- If some element of a list of at least two elements is NaN, some
difference of consecutive elements is NaN. -/
theorem dDiff_any_nan : ∀ l : List DVal, DVal.nan ∈ l → 2 ≤ l.length →
    (dDiff l).any DVal.isNan = true
  | [], h, _ => by simp at h
  | [_], _, h2 => by simp at h2
  | a :: b :: t, h, _ => by
      rcases List.mem_cons.mp h with ha | hbt
      · cases b <;> simp [dDiff, ← ha, dsub, DVal.isNan]
      · rcases List.mem_cons.mp hbt with hb | ht
        · cases a <;> simp [dDiff, ← hb, dsub, DVal.isNan]
        · have hlen : 2 ≤ (b :: t).length := by
            cases t with
            | nil => simp at ht
            | cons _ _ => simp only [List.length_cons]; omega
          have ih := dDiff_any_nan (b :: t) (List.mem_cons_of_mem b ht) hlen
          simp [dDiff, ih]

/-- A value that is a finite number lying in `[lo, hi]`. -/
def inRange (lo hi : ℚ) (v : DVal) : Prop :=
  ∃ x : ℚ, v = DVal.num x ∧ lo ≤ x ∧ x ≤ hi

/-- Clipping a finite number lands in `[lo, hi]` whenever `lo ≤ hi`. -/
theorem dclip_inRange (lo hi x : ℚ) (hb : lo ≤ hi) :
    inRange lo hi (dclip lo hi (DVal.num x)) := by
  refine ⟨min hi (max lo x), rfl, ?_, min_le_left _ _⟩
  exact le_min hb (le_max_left _ _)

/-- Every element of the clipped array with the two bounds appended is a
finite number in `[lo, hi]`. -/
theorem mem_clipped_append_inRange (xs : List ℚ) (lo hi : ℚ) (hb : lo ≤ hi) :
    ∀ v ∈ (xs.map DVal.num).map (dclip lo hi) ++ [DVal.num lo, DVal.num hi],
      inRange lo hi v := by
  intro v hv
  rcases List.mem_append.mp hv with hv | hv
  · rcases List.mem_map.mp hv with ⟨w, hw, rfl⟩
    rcases List.mem_map.mp hw with ⟨x, _, rfl⟩
    exact dclip_inRange lo hi x hb
  · rcases List.mem_cons.mp hv with rfl | hv
    · exact ⟨lo, rfl, le_refl lo, hb⟩
    · rcases List.mem_cons.mp hv with rfl | hv
      · exact ⟨hi, rfl, hb, le_refl hi⟩
      · simp at hv

/-- The utility list has `k + 1` entries. -/
theorem utilityList_length (q : ℚ) (k : ℕ) : (utilityList q k).length = k + 1 := by
  unfold utilityList
  rw [List.length_map, List.length_range]

/-- The utility of candidate `i` is `-|i - q·k|`. -/
theorem utilityList_getD (q : ℚ) (k i : ℕ) (h : i ≤ k) :
    (utilityList q k).getD i 0 = -|(i : ℚ) - q * (k : ℚ)| := by
  have hi : i < (utilityList q k).length := by rw [utilityList_length]; omega
  rw [List.getD_eq_getElem _ _ hi]
  unfold utilityList
  simp [List.getElem_map, List.getElem_range]

/-! ### C9: RoundedInteger.post_transform rounds to a nearest integer -/

/-- C9: for every real input, `RoundedInteger.post_transform` returns an
integer at distance at most 1/2 from the input, and no integer is strictly
closer; the transform is a pure function of its input (it is a plain
function in this embedding), so it is deterministic, consumes no privacy
budget and has no side effects.  At half-integers the tie is broken to the
even integer (Python's `round`), which is still a nearest integer. -/
theorem post_transform_nearest_integer (x : ℚ) (m : ℤ) :
    |x - (RoundedInteger.post_transform x : ℚ)| ≤ 1 / 2 ∧
    |x - (RoundedInteger.post_transform x : ℚ)| ≤ |x - (m : ℚ)| := by
  unfold RoundedInteger.post_transform pyRound
  have h0 : (0 : ℚ) ≤ x - (Int.floor x : ℚ) := by
    have := Int.floor_le x; linarith
  have h1 : x - (Int.floor x : ℚ) < 1 := by
    have := Int.lt_floor_add_one x; linarith
  have hm : (m : ℚ) ≤ (Int.floor x : ℚ) ∨ (Int.floor x : ℚ) + 1 ≤ (m : ℚ) := by
    rcases le_or_lt m (Int.floor x) with h | h
    · exact Or.inl (by exact_mod_cast h)
    · exact Or.inr (by exact_mod_cast h)
  have habs : ∀ c : ℚ, x - (m : ℚ) ≤ |x - (m : ℚ)| ∧ (m : ℚ) - x ≤ |x - (m : ℚ)| := by
    intro c
    exact ⟨le_abs_self _, by rw [abs_sub_comm]; exact le_abs_self _⟩
  obtain ⟨hm1, hm2⟩ := habs 0
  split_ifs with hlt hgt heven
  · have he : |x - (Int.floor x : ℚ)| = x - (Int.floor x : ℚ) := abs_of_nonneg h0
    constructor
    · rw [he]; linarith
    · rw [he]; rcases hm with h | h
      · linarith
      · linarith
  · have hnonpos : x - ((Int.floor x : ℤ) + 1 : ℤ) ≤ 0 := by push_cast; linarith
    have he : |x - ((Int.floor x : ℤ) + 1 : ℤ)| = ((Int.floor x : ℚ) + 1) - x := by
      rw [abs_of_nonpos hnonpos]; push_cast; ring
    constructor
    · rw [he]; linarith
    · rw [he]; rcases hm with h | h
      · linarith
      · linarith
  · have hr : x - (Int.floor x : ℚ) = 1 / 2 := by
      rcases lt_trichotomy (x - (Int.floor x : ℚ)) (1 / 2) with h | h | h
      · exact absurd h hlt
      · exact h
      · exact absurd h hgt
    have he : |x - (Int.floor x : ℚ)| = x - (Int.floor x : ℚ) := abs_of_nonneg h0
    constructor
    · rw [he]; linarith
    · rw [he]; rcases hm with h | h
      · linarith
      · linarith
  · have hr : x - (Int.floor x : ℚ) = 1 / 2 := by
      rcases lt_trichotomy (x - (Int.floor x : ℚ)) (1 / 2) with h | h | h
      · exact absurd h hlt
      · exact h
      · exact absurd h hgt
    have hnonpos : x - ((Int.floor x : ℤ) + 1 : ℤ) ≤ 0 := by push_cast; linarith
    have he : |x - ((Int.floor x : ℤ) + 1 : ℤ)| = ((Int.floor x : ℚ) + 1) - x := by
      rw [abs_of_nonpos hnonpos]; push_cast; ring
    constructor
    · rw [he]; linarith
    · rw [he]; rcases hm with h | h
      · linarith
      · linarith

/-! ### C1: sensitivity configuration of mean and var -/

/-- C1: the claim fails on the scalar branch of `var`.  With data `[[1, 3]]`,
`epsilon = 1`, `range = 2` and full reduction (`n = 2` data points, scalar
result), the single bounded-Laplace mechanism `var` constructs is configured
with sensitivity `range² / n = 2`, whereas the spec formula
`(range/n)² · (n-1)` gives `1`.  The ndarray branch of the same function
(here: `axis=1` over two rows, `n = 2` per cell) and both branches of `mean`
do follow the spec formula, exhibiting the inconsistency within `var`
itself. -/
theorem var_scalar_sensitivity_bug :
    (var [[1, 3]] 1 (some (RangeArg.real 2)) Axis.all 0 [0]).mechs =
      [MechRec.mk (MechKind.laplaceBoundedDomain 0 none) 1 2] ∧
    ((2 : ℚ) / 2) ^ 2 * ((2 : ℚ) - 1) = 1 ∧
    (2 : ℚ) ≠ 1 ∧
    (var [[1, 3], [2, 4]] 1 (some (RangeArg.real 2)) Axis.axis1 0 [0, 0]).mechs =
      [MechRec.mk (MechKind.laplaceBoundedDomain 0 none) 1 1,
        MechRec.mk (MechKind.laplaceBoundedDomain 0 none) 1 1] ∧
    (mean [[1, 3]] 1 (some (RangeArg.real 2)) Axis.all [0]).mechs =
      [MechRec.mk MechKind.laplace 1 1] := by
  refine ⟨?_, by norm_num, by norm_num, ?_, ?_⟩
  · norm_num [var, npVar, resolveRanges, numDatapoints, ncols, NPVal.allPos,
      NPVal.shapeArr, NPVal.ravelHead, rowVar, rowMean, rowSum]
  · norm_num [var, npVar, resolveRanges, numDatapoints, ncols, NPVal.allPos,
      NPVal.shapeArr, NPVal.ravelHead, rowVar, rowMean, rowSum]
  · norm_num [mean, npMean, resolveRanges, numDatapoints, ncols, NPVal.allPos,
      NPVal.shapeArr, NPVal.ravelHead, rowMean, rowSum]

/-! ### C8: std is the elementwise square root of var -/

/-- C8: for every input and every assignment of random draws, `std` returns
exactly the elementwise square root of what `var` returns on the same
arguments and the same draws, constructs exactly the same mechanisms (none
in addition), and performs exactly the same events (in particular, utils.py
records no accountant spend at all, so no further privacy budget is
consumed): square-rooting is pure post-processing. -/
theorem std_is_sqrt_of_var (a : Matrix) (epsilon : ℚ) (rangeArg : Option RangeArg)
    (axis : Axis) (ddof : ℕ) (noise : List ℚ) :
    (std a epsilon rangeArg axis ddof noise).1 =
      (var a epsilon rangeArg axis ddof noise).events ∧
    (std a epsilon rangeArg axis ddof noise).2.1 =
      (var a epsilon rangeArg axis ddof noise).mechs ∧
    (std a epsilon rangeArg axis ddof noise).2.2 =
      ((var a epsilon rangeArg axis ddof noise).result).map NPVal.sqrtR := by
  refine ⟨rfl, rfl, ?_⟩
  unfold std
  rcases hres : (var a epsilon rangeArg axis ddof noise).result with e | v
  · simp [hres, Except.map]
  · cases v <;> simp [hres, Except.map, NPVal.sqrtR]

/-! ### C10: the derived range is always strictly positive -/

/-- Lower bound holding for every entry of a reduction result. -/
def NPVal.allGE (c : ℚ) : NPVal → Prop
  | NPVal.scalar x => c ≤ x
  | NPVal.arr xs => ∀ x ∈ xs, c ≤ x

/-- Every entry of the data-derived range is at least `1e-5`. -/
theorem derivedRanges_allGE (a : Matrix) (axis : Axis) :
    NPVal.allGE (1 / 100000) (derivedRanges a axis) := by
  cases axis <;>
    simp only [derivedRanges, npMax, npMin, NPVal.allGE] <;>
    first
      | exact le_max_right _ _
      | · intro x hx
          rcases List.mem_map.mp hx with ⟨p, _, rfl⟩
          exact le_max_right _ _

/-- A reduction result bounded below by `1e-5` passes the positivity
check. -/
theorem allPos_of_allGE (v : NPVal) (h : NPVal.allGE (1 / 100000) v) :
    v.allPos = true := by
  cases v with
  | scalar x =>
      simp only [NPVal.allPos, decide_eq_true_eq]
      exact lt_of_lt_of_le (by norm_num) h
  | arr xs =>
      simp only [NPVal.allPos, List.all_eq_true, decide_eq_true_eq]
      intro x hx
      exact lt_of_lt_of_le (by norm_num) (h x hx)

/-- The derived range has the same numpy shape as the corresponding mean
reduction. -/
theorem derivedRanges_shape_mean (a : Matrix) (axis : Axis) :
    (derivedRanges a axis).shapeArr = (npMean a axis).shapeArr := by
  cases axis <;>
    simp [derivedRanges, npMax, npMin, npMean, NPVal.shapeArr, List.length_zip]

/-- The derived range has the same numpy shape as the corresponding variance
reduction. -/
theorem derivedRanges_shape_var (a : Matrix) (axis : Axis) (ddof : ℕ) :
    (derivedRanges a axis).shapeArr = (npVar a ddof axis).shapeArr := by
  cases axis <;>
    simp [derivedRanges, npMax, npMin, npVar, NPVal.shapeArr, List.length_zip]

/-- C10: on the `range=None` path of `mean` and `var`, the range derived
from the data is `max(max - min, 1e-5)` entrywise, hence at least `1e-5 > 0`
in every entry — even for constant (zero-spread) data — so the
"ranges must be positive" value-error branch is unreachable there and both
calls return a result. -/
theorem derived_range_positive_and_no_range_error (a : Matrix) (epsilon : ℚ)
    (axis : Axis) (ddof : ℕ) (noise : List ℚ)
    (hne : a ≠ []) (hrows : ∀ row ∈ a, row ≠ []) :
    NPVal.allGE (1 / 100000) (derivedRanges a axis) ∧
    (∃ v, (mean a epsilon none axis noise).result = Except.ok v) ∧
    (∃ w, (var a epsilon none axis ddof noise).result = Except.ok w) := by
  refine ⟨derivedRanges_allGE a axis, ?_, ?_⟩
  · have hpos := allPos_of_allGE _ (derivedRanges_allGE a axis)
    have hshape := derivedRanges_shape_mean a axis
    unfold mean
    simp only [resolveRanges, hpos, hshape, decide_eq_true (Eq.refl _)]
    norm_num
    cases axis with
    | all =>
        simp [npMean, derivedRanges, npMax, npMin]
    | axis0 =>
        simp only [npMean, derivedRanges, npMax, npMin]
        exact ⟨_, rfl⟩
    | axis1 =>
        simp only [npMean, derivedRanges, npMax, npMin]
        exact ⟨_, rfl⟩
  · have hpos := allPos_of_allGE _ (derivedRanges_allGE a axis)
    have hshape := derivedRanges_shape_var a axis ddof
    unfold var
    simp only [resolveRanges, hpos, hshape, decide_eq_true (Eq.refl _)]
    norm_num
    cases axis with
    | all =>
        simp [npVar, derivedRanges, npMax, npMin]
    | axis0 =>
        simp only [npVar, derivedRanges, npMax, npMin]
        exact ⟨_, rfl⟩
    | axis1 =>
        simp only [npVar, derivedRanges, npMax, npMin]
        exact ⟨_, rfl⟩

/-- Witness for C10 at the concrete constant-data input `[[1]]`. -/
theorem derived_range_positive_witness :
    NPVal.allGE (1 / 100000) (derivedRanges [[1]] Axis.all) ∧
    (∃ v, (mean [[1]] 1 none Axis.all []).result = Except.ok v) ∧
    (∃ w, (var [[1]] 1 none Axis.all 0 []).result = Except.ok w) :=
  derived_range_positive_and_no_range_error [[1]] 1 Axis.all 0 []
    (by simp) (by simp)

/-! ### Quantile path reduction -/

/-- The clipped array with the two bounds appended, sorted — the list the
single-quantile body selects its gap from (quantiles.py lines 96–100). -/
def augSorted (array : List DVal) (lo hi : ℚ) : List DVal :=
  List.insertionSort dLE (array.map (dclip lo hi) ++ [DVal.num lo, DVal.num hi])

/-- The value `quantile` returns once gap `idx` is selected
(quantiles.py line 113): a uniform draw `u` within
`[s[idx], s[idx+1]]`. -/
def gapValue (s : List DVal) (idx : ℕ) (u : ℚ) : DVal :=
  dadd (dmul (DVal.num u) (dsub (s.getD (idx + 1) DVal.nan) (s.getD idx DVal.nan)))
    (s.getD idx DVal.nan)

/-- On the NaN-free path with a passing budget check and a valid quantile,
the single-quantile body performs exactly one `check`, one `randomise` and
one `spend` (in that order), constructs exactly one Exponential mechanism
with sensitivity 1, utilities `-|i - q·k|` for the `k+1` candidates and the
gap widths as measure, spends `(epsilon, 0)`, and returns a uniform draw
inside the gap selected by the mechanism's random draw. -/
theorem quantileCore_success (array : List DVal) (q epsilon lo hi : ℚ)
    (acc : BudgetAccountant) (choice : ℕ) (u : ℚ)
    (hchk : acc.checkOk epsilon 0 = true) (hq0 : 0 ≤ q) (hq1 : q ≤ 1)
    (hnn : (dDiff (augSorted array lo hi)).any DVal.isNan = false) :
    quantileCore array q epsilon lo hi acc choice u =
      ⟨[Event.check epsilon 0, Event.randomise, Event.spend epsilon 0],
        [⟨epsilon, 1, utilityList q array.length, dDiff (augSorted array lo hi)⟩],
        Except.ok (gapValue (augSorted array lo hi)
          (choice % (array.length + 1)) u),
        acc.spend epsilon 0⟩ := by
  unfold augSorted at hnn
  simp only [quantileCore, hchk, hq0, hq1, and_self, if_true, hnn,
    Bool.false_eq_true, if_false, augSorted, gapValue, Exponential.randomise,
    utilityList_length, List.length_map]

/-- Every element of the sorted augmented list lies in `[lo, hi]` when every
element of the unsorted list does; consecutive elements are ordered. -/
theorem sorted_gap (L : List DVal) (lo hi : ℚ)
    (hall : ∀ v ∈ L, inRange lo hi v) (i : ℕ)
    (hi2 : i + 1 < (List.insertionSort dLE L).length) :
    ∃ aq bq : ℚ,
      (List.insertionSort dLE L).getD i DVal.nan = DVal.num aq ∧
      (List.insertionSort dLE L).getD (i + 1) DVal.nan = DVal.num bq ∧
      lo ≤ aq ∧ aq ≤ bq ∧ bq ≤ hi := by
  have hi1 : i < (List.insertionSort dLE L).length := by omega
  rw [List.getD_eq_getElem _ _ hi1, List.getD_eq_getElem _ _ hi2]
  have hm1 : (List.insertionSort dLE L)[i] ∈ L :=
    (List.mem_insertionSort dLE).mp (List.getElem_mem hi1)
  have hm2 : (List.insertionSort dLE L)[i + 1] ∈ L :=
    (List.mem_insertionSort dLE).mp (List.getElem_mem hi2)
  obtain ⟨aq, ha, halo, hahi⟩ := hall _ hm1
  obtain ⟨bq, hb, hblo, hbhi⟩ := hall _ hm2
  have hrel : dLE ((List.insertionSort dLE L)[i]) ((List.insertionSort dLE L)[i + 1]) := by
    have := (List.sorted_insertionSort dLE L).rel_get_of_lt
      (a := ⟨i, hi1⟩) (b := ⟨i + 1, hi2⟩) (by simp [Fin.mk_lt_mk])
    simpa [List.get_eq_getElem] using this
  rw [ha, hb] at hrel
  have hab : aq ≤ bq := by
    simpa [dLE, dleB, decide_eq_true_eq] using hrel
  exact ⟨aq, bq, ha, hb, halo, hab, hbhi⟩

/-- A list of in-range values produces no NaN among the gap widths. -/
theorem no_nan_of_inRange (L : List DVal) (lo hi : ℚ)
    (hall : ∀ v ∈ L, inRange lo hi v) :
    (dDiff (List.insertionSort dLE L)).any DVal.isNan = false := by
  apply dDiff_no_nan
  intro v hv
  rcases hall v ((List.mem_insertionSort dLE).mp hv) with ⟨x, rfl, _, _⟩
  rfl

/-- The sorted augmented list of a `k`-element numeric array has `k + 2`
elements. -/
theorem augSorted_length (xs : List ℚ) (lo hi : ℚ) :
    (augSorted (xs.map DVal.num) lo hi).length = xs.length + 2 := by
  unfold augSorted
  rw [List.length_insertionSort]
  simp

/-! ### C4: quantile's result always lies inside the bounds -/

/-- C4: for every array of finite numbers, every bounds pair `lo ≤ hi`,
every quantile `q ∈ [0, 1]`, every mechanism draw `choice` and every uniform
variate `u ∈ [0, 1)`, the embedded `quantile` succeeds and its result lies
in the closed interval `[lo, hi]` (the default accountant being unlimited,
with an arbitrary prior ledger). -/
theorem quantile_within_bounds (xs : List ℚ) (q epsilon lo hi u : ℚ)
    (choice : ℕ) (spent : List (ℚ × ℚ)) (hb : lo ≤ hi) (hq0 : 0 ≤ q)
    (hq1 : q ≤ 1) (hu0 : 0 ≤ u) (hu1 : u < 1) :
    ∃ v : ℚ,
      (quantileCall (xs.map DVal.num) [q] epsilon (some (lo, hi)) none
          ⟨none, none, spent⟩ [(choice, u)]).result = Except.ok [DVal.num v] ∧
      lo ≤ v ∧ v ≤ hi := by
  have hall := mem_clipped_append_inRange xs lo hi hb
  have hnn : (dDiff (augSorted (xs.map DVal.num) lo hi)).any DVal.isNan = false := by
    unfold augSorted
    exact no_nan_of_inRange _ lo hi hall
  have hidx : choice % (xs.length + 1) + 1 <
      (augSorted (xs.map DVal.num) lo hi).length := by
    rw [augSorted_length]
    have := Nat.mod_lt choice (y := xs.length + 1) (by omega)
    omega
  obtain ⟨aq, bq, ha, hbq, h1, h2, h3⟩ := sorted_gap _ lo hi hall
    (choice % (xs.length + 1)) (by rw [← augSorted]; exact hidx)
  rw [← augSorted] at ha hbq
  have hcore := quantileCore_success (xs.map DVal.num) q epsilon lo hi
    ⟨none, none, spent⟩ choice u (checkOk_of_no_caps spent epsilon 0) hq0 hq1 hnn
  have hres : resolveBounds (xs.map DVal.num) (some (lo, hi)) = Except.ok (lo, hi) := by
    simp [resolveBounds, hb]
  refine ⟨u * (bq - aq) + aq, ?_, ?_, ?_⟩
  · simp only [quantileCall, hres, quantileResolved, List.getD_cons_zero, hcore,
      List.length_map, gapValue, ha, hbq, dsub, dmul, dadd, Except.map]
  · have hmul : 0 ≤ u * (bq - aq) := mul_nonneg hu0 (by linarith)
    linarith
  · have hmul : u * (bq - aq) ≤ 1 * (bq - aq) :=
      mul_le_mul_of_nonneg_right (le_of_lt hu1) (by linarith)
    linarith

/-- Witness for C4 at a concrete input. -/
theorem quantile_within_bounds_witness :
    ∃ v : ℚ,
      (quantileCall ([5, -3, 1/2].map DVal.num) [1/2] 1 (some (0, 1)) none
          ⟨none, none, []⟩ [(7, 1/3)]).result = Except.ok [DVal.num v] ∧
      0 ≤ v ∧ v ≤ 1 :=
  quantile_within_bounds [5, -3, 1/2] (1/2) 1 0 1 (1/3) 7 []
    (by norm_num) (by norm_num) (by norm_num) (by norm_num) (by norm_num)

/-! ### C7: the Exponential mechanism call made by quantile -/

/-- C7: a single-quantile call on `k` clipped values constructs exactly one
Exponential mechanism, with the call's epsilon, sensitivity 1, the `k + 1`
utilities `-|i - q·k|` for `i = 0, …, k`, and as measure the `k + 1` gap
widths between consecutive values of the sorted bounds-augmented array; the
returned value is the uniform draw `u·(s[idx+1] − s[idx]) + s[idx]` inside
the gap `idx` selected by the mechanism. -/
theorem quantile_exponential_mechanism (xs : List ℚ) (q epsilon lo hi u : ℚ)
    (choice : ℕ) (spent : List (ℚ × ℚ)) (hb : lo ≤ hi) (hq0 : 0 ≤ q)
    (hq1 : q ≤ 1) :
    (quantileCall (xs.map DVal.num) [q] epsilon (some (lo, hi)) none
        ⟨none, none, spent⟩ [(choice, u)]).mechs =
      [⟨epsilon, 1, utilityList q xs.length,
        dDiff (augSorted (xs.map DVal.num) lo hi)⟩] ∧
    (utilityList q xs.length).length = xs.length + 1 ∧
    (dDiff (augSorted (xs.map DVal.num) lo hi)).length = xs.length + 1 ∧
    (∀ i : ℕ, i ≤ xs.length →
      (utilityList q xs.length).getD i 0 = -|(i : ℚ) - q * (xs.length : ℚ)|) ∧
    (∀ i : ℕ, i ≤ xs.length → ∃ a b : ℚ,
      (augSorted (xs.map DVal.num) lo hi).getD i DVal.nan = DVal.num a ∧
      (augSorted (xs.map DVal.num) lo hi).getD (i + 1) DVal.nan = DVal.num b ∧
      (dDiff (augSorted (xs.map DVal.num) lo hi)).getD i DVal.nan =
        DVal.num (b - a)) ∧
    (∃ a b : ℚ,
      (augSorted (xs.map DVal.num) lo hi).getD (choice % (xs.length + 1))
        DVal.nan = DVal.num a ∧
      (augSorted (xs.map DVal.num) lo hi).getD (choice % (xs.length + 1) + 1)
        DVal.nan = DVal.num b ∧
      (quantileCall (xs.map DVal.num) [q] epsilon (some (lo, hi)) none
          ⟨none, none, spent⟩ [(choice, u)]).result =
        Except.ok [DVal.num (u * (b - a) + a)]) := by
  have hall := mem_clipped_append_inRange xs lo hi hb
  have hnn : (dDiff (augSorted (xs.map DVal.num) lo hi)).any DVal.isNan = false := by
    unfold augSorted
    exact no_nan_of_inRange _ lo hi hall
  have hcore := quantileCore_success (xs.map DVal.num) q epsilon lo hi
    ⟨none, none, spent⟩ choice u (checkOk_of_no_caps spent epsilon 0) hq0 hq1 hnn
  have hres : resolveBounds (xs.map DVal.num) (some (lo, hi)) = Except.ok (lo, hi) := by
    simp [resolveBounds, hb]
  have hgapAt : ∀ i : ℕ, i ≤ xs.length → ∃ a b : ℚ,
      (augSorted (xs.map DVal.num) lo hi).getD i DVal.nan = DVal.num a ∧
      (augSorted (xs.map DVal.num) lo hi).getD (i + 1) DVal.nan = DVal.num b ∧
      (dDiff (augSorted (xs.map DVal.num) lo hi)).getD i DVal.nan =
        DVal.num (b - a) := by
    intro i hik
    have hi2 : i + 1 < (augSorted (xs.map DVal.num) lo hi).length := by
      rw [augSorted_length]; omega
    obtain ⟨a, b, ha, hbq, _, _, _⟩ := sorted_gap _ lo hi hall i
      (by rw [← augSorted]; exact hi2)
    rw [← augSorted] at ha hbq
    refine ⟨a, b, ha, hbq, ?_⟩
    rw [dDiff_getD _ i hi2, ha, hbq]
    rfl
  refine ⟨?_, utilityList_length q xs.length, ?_, fun i h => utilityList_getD q xs.length i h,
    hgapAt, ?_⟩
  · simp only [quantileCall, hres, quantileResolved, List.getD_cons_zero, hcore,
      List.length_map]
  · rw [dDiff_length, augSorted_length]
    omega
  · have hik : choice % (xs.length + 1) ≤ xs.length := by
      have := Nat.mod_lt choice (y := xs.length + 1) (by omega)
      omega
    obtain ⟨a, b, ha, hbq, _⟩ := hgapAt (choice % (xs.length + 1)) hik
    refine ⟨a, b, ha, hbq, ?_⟩
    simp only [quantileCall, hres, quantileResolved, List.getD_cons_zero, hcore,
      List.length_map, gapValue, ha, hbq, dsub, dmul, dadd, Except.map]

/-- Witness for C7 at a concrete input. -/
theorem quantile_exponential_mechanism_witness :
    (quantileCall ([0, 1].map DVal.num) [1/2] 1 (some (0, 1)) none
        ⟨none, none, []⟩ [(0, 0)]).mechs =
      [⟨1, 1, utilityList (1/2) 2, dDiff (augSorted ([0, 1].map DVal.num) 0 1)⟩] :=
  (quantile_exponential_mechanism [0, 1] (1/2) 1 0 1 0 0 []
    (by norm_num) (by norm_num) (by norm_num)).1

/-! ### C2: accountant interaction of the estimators -/

/-- C2 (amended): the single-quantile body always performs its accountant
`check` first; it either stops there (no mechanism, no spend, accountant
unchanged — budget failure, invalid quantile, or NaN propagation) or
performs exactly one mechanism `randomise` followed by exactly one `spend`
of the same `(epsilon, 0)` it checked, recorded only after the mechanism
ran.  `mean`, `var` and `std`, by contrast, never interact with any
accountant: their event traces consist of `randomise` events only. -/
theorem estimator_accountant_discipline :
    (∀ (array : List DVal) (q epsilon lo hi : ℚ) (acc : BudgetAccountant)
        (choice : ℕ) (u : ℚ),
      ((quantileCore array q epsilon lo hi acc choice u).events =
          [Event.check epsilon 0] ∧
        (quantileCore array q epsilon lo hi acc choice u).mechs = [] ∧
        (quantileCore array q epsilon lo hi acc choice u).acc = acc) ∨
      ((quantileCore array q epsilon lo hi acc choice u).events =
          [Event.check epsilon 0, Event.randomise, Event.spend epsilon 0] ∧
        (∃ m, (quantileCore array q epsilon lo hi acc choice u).mechs = [m]) ∧
        (quantileCore array q epsilon lo hi acc choice u).acc =
          acc.spend epsilon 0)) ∧
    (∀ (a : Matrix) (epsilon : ℚ) (rg : Option RangeArg) (axis : Axis)
        (noise : List ℚ), ∃ nn,
      (mean a epsilon rg axis noise).events = List.replicate nn Event.randomise) ∧
    (∀ (a : Matrix) (epsilon : ℚ) (rg : Option RangeArg) (axis : Axis)
        (ddof : ℕ) (noise : List ℚ), ∃ nn,
      (var a epsilon rg axis ddof noise).events = List.replicate nn Event.randomise) ∧
    (∀ (a : Matrix) (epsilon : ℚ) (rg : Option RangeArg) (axis : Axis)
        (ddof : ℕ) (noise : List ℚ), ∃ nn,
      (std a epsilon rg axis ddof noise).1 = List.replicate nn Event.randomise) := by
  have hvar : ∀ (a : Matrix) (epsilon : ℚ) (rg : Option RangeArg) (axis : Axis)
      (ddof : ℕ) (noise : List ℚ), ∃ nn,
      (var a epsilon rg axis ddof noise).events = List.replicate nn Event.randomise := by
    intro a epsilon rg axis ddof noise
    simp only [var]
    split_ifs
    · exact ⟨0, rfl⟩
    · exact ⟨0, rfl⟩
    · cases npVar a ddof axis with
      | scalar v =>
          cases resolveRanges a axis (NPVal.scalar v) rg with
          | scalar r => exact ⟨1, rfl⟩
          | arr rs => exact ⟨1, rfl⟩
      | arr vs =>
          cases resolveRanges a axis (NPVal.arr vs) rg with
          | scalar r => exact ⟨0, rfl⟩
          | arr rs => exact ⟨rs.length, by simp [Function.comp_def]⟩
  refine ⟨?_, ?_, hvar, ?_⟩
  · intro array q epsilon lo hi acc choice u
    simp only [quantileCore]
    split_ifs
    · exact Or.inl ⟨rfl, rfl, rfl⟩
    · exact Or.inr ⟨rfl, ⟨_, rfl⟩, rfl⟩
    · exact Or.inl ⟨rfl, rfl, rfl⟩
    · exact Or.inl ⟨rfl, rfl, rfl⟩
  · intro a epsilon rg axis noise
    simp only [mean]
    split_ifs
    · exact ⟨0, rfl⟩
    · exact ⟨0, rfl⟩
    · cases npMean a axis with
      | scalar v =>
          cases resolveRanges a axis (NPVal.scalar v) rg with
          | scalar r => exact ⟨1, rfl⟩
          | arr rs => exact ⟨1, rfl⟩
      | arr vs =>
          cases resolveRanges a axis (NPVal.arr vs) rg with
          | scalar r => exact ⟨0, rfl⟩
          | arr rs => exact ⟨rs.length, by simp [Function.comp_def]⟩
  · intro a epsilon rg axis ddof noise
    obtain ⟨nn, hnn⟩ := hvar a epsilon rg axis ddof noise
    exact ⟨nn, hnn⟩

/-- C2 counterexample: `mean` (utils.py) invokes a mechanism's `randomise`
without any preceding accountant `check` — its whole event trace at this
input is a single `randomise` and contains no `check` event at all, so no
accountant `check` precedes the mechanism invocation. -/
theorem mean_randomises_without_check :
    (mean [[1]] 1 (some (RangeArg.real 1)) Axis.all [0]).events =
      [Event.randomise] ∧
    ((mean [[1]] 1 (some (RangeArg.real 1)) Axis.all [0]).events.any
      Event.isCheck) = false := by
  constructor <;>
    norm_num [mean, npMean, resolveRanges, numDatapoints, ncols, rowMean,
      rowSum, NPVal.allPos, NPVal.shapeArr, NPVal.ravelHead, Event.isCheck]

/-! ### C5: quantile out of [0, 1] -/

/-- C5 (amended): a single-quantile call with `q < 0` or `q > 1` fails with
a value error and records no spend — the accountants' ledgers are unchanged
and no mechanism is constructed — but the failure happens only after the
resolved accountant's `check(epsilon, 0)` has already been invoked
(quantiles.py performs the check on line 89, before validating `q` on line
93). -/
theorem quantile_invalid_q (array : List DVal) (q epsilon lo hi u : ℚ)
    (choice : ℕ) (acc defAcc : BudgetAccountant) (hb : lo ≤ hi)
    (hq : q < 0 ∨ 1 < q) (hchk : acc.checkOk epsilon 0 = true) :
    quantileCall array [q] epsilon (some (lo, hi)) (some acc) defAcc
        [(choice, u)] =
      ⟨[Event.check epsilon 0], [], Except.error QErr.valueError, some acc,
        defAcc⟩ := by
  have hres : resolveBounds array (some (lo, hi)) = Except.ok (lo, hi) := by
    simp [resolveBounds, hb]
  have hnq : ¬(0 ≤ q ∧ q ≤ 1) := by
    rcases hq with h | h <;> intro hc <;> rcases hc with ⟨h1, h2⟩ <;> linarith
  simp only [quantileCall, hres, quantileResolved, List.getD_cons_zero,
    quantileCore, hchk, if_true, hnq, if_false, Except.map]

/-- Witness for C5 (amended) at `q = 3/2 > 1`. -/
theorem quantile_invalid_q_witness :
    quantileCall [DVal.num 1] [3/2] 1 (some (0, 1))
        (some BudgetAccountant.fresh) BudgetAccountant.fresh [(0, 0)] =
      ⟨[Event.check 1 0], [], Except.error QErr.valueError,
        some BudgetAccountant.fresh, BudgetAccountant.fresh⟩ :=
  quantile_invalid_q [DVal.num 1] (3/2) 1 0 1 0 0 BudgetAccountant.fresh
    BudgetAccountant.fresh (by norm_num) (Or.inr (by norm_num)) rfl

/-- C5 counterexample to the claim as stated: at `q = -1/2 < 0` the call
does fail with a value error, but an accountant interaction has already
happened — the event trace contains the `check(1, 0)` event, refuting that
the failure occurs before any interaction with the accountant. -/
theorem quantile_invalid_q_checks_first :
    (quantileCall [DVal.num 1] [-(1/2)] 1 (some (0, 1))
        (some BudgetAccountant.fresh) BudgetAccountant.fresh [(0, 0)]).result =
      Except.error QErr.valueError ∧
    (quantileCall [DVal.num 1] [-(1/2)] 1 (some (0, 1))
        (some BudgetAccountant.fresh) BudgetAccountant.fresh [(0, 0)]).events =
      [Event.check 1 0] := by
  constructor <;>
    norm_num [quantileCall, resolveBounds, quantileResolved, quantileCore,
      BudgetAccountant.fresh, BudgetAccountant.checkOk, Except.map]

/-! ### C6: NaN input propagates without exception, mechanism or spend -/

/-- C6: when the array contains NaN (so the clipped, bounds-augmented array
does too), an otherwise valid single-quantile call returns the NaN marker
rather than an error: no Exponential mechanism is constructed, no
`randomise` and no `spend` event occurs (only the earlier `check`), and
both accountants are left unchanged. -/
theorem quantile_nan_propagates (array : List DVal) (q epsilon lo hi u : ℚ)
    (choice : ℕ) (acc defAcc : BudgetAccountant) (hnan : DVal.nan ∈ array)
    (hb : lo ≤ hi) (hq0 : 0 ≤ q) (hq1 : q ≤ 1)
    (hchk : acc.checkOk epsilon 0 = true) :
    quantileCall array [q] epsilon (some (lo, hi)) (some acc) defAcc
        [(choice, u)] =
      ⟨[Event.check epsilon 0], [], Except.ok [DVal.nan], some acc, defAcc⟩ := by
  have hres : resolveBounds array (some (lo, hi)) = Except.ok (lo, hi) := by
    simp [resolveBounds, hb]
  have hmem : DVal.nan ∈
      List.insertionSort dLE (array.map (dclip lo hi) ++ [DVal.num lo, DVal.num hi]) := by
    rw [List.mem_insertionSort]
    exact List.mem_append_left _ (List.mem_map.mpr ⟨DVal.nan, hnan, rfl⟩)
  have hlen : 2 ≤
      (List.insertionSort dLE (array.map (dclip lo hi) ++ [DVal.num lo, DVal.num hi])).length := by
    rw [List.length_insertionSort, List.length_append]
    simp
  have hany := dDiff_any_nan _ hmem hlen
  simp only [quantileCall, hres, quantileResolved, List.getD_cons_zero,
    quantileCore, hchk, hq0, hq1, and_self, if_true, hany, Except.map]

/-- Witness for C6 at a concrete input containing NaN. -/
theorem quantile_nan_propagates_witness :
    quantileCall [DVal.num 0, DVal.nan] [1/2] 1 (some (0, 1))
        (some BudgetAccountant.fresh) BudgetAccountant.fresh [(0, 0)] =
      ⟨[Event.check 1 0], [], Except.ok [DVal.nan],
        some BudgetAccountant.fresh, BudgetAccountant.fresh⟩ :=
  quantile_nan_propagates [DVal.num 0, DVal.nan] (1/2) 1 0 1 0 0
    BudgetAccountant.fresh BudgetAccountant.fresh (by simp) (by norm_num)
    (by norm_num) (by norm_num) rfl

/-! ### C3: multi-quantile budget split and the dropped accountant -/

/-- C3: the claim fails on the code.  Requesting the two quantiles
`[1/4, 3/4]` with total `epsilon = 1` and an explicitly supplied fresh
accountant, the call succeeds and each sub-query is charged `1/2` — but
both spends land on the *default* accountant (whose ledger ends as two
spends of `1/2` totalling `(1, 0)`), while the supplied accountant comes
back unchanged with `total() = (0, 0)`: the recursive call in
quantiles.py line 85 omits the `accountant` argument. -/
theorem multi_quantile_spends_default_accountant :
    (quantileCall [DVal.num 0, DVal.num 1] [1/4, 3/4] 1 (some (0, 1))
        (some BudgetAccountant.fresh) BudgetAccountant.fresh
        [(0, 0), (0, 0)]).expAcc = some BudgetAccountant.fresh ∧
    BudgetAccountant.fresh.total = (0, 0) ∧
    (quantileCall [DVal.num 0, DVal.num 1] [1/4, 3/4] 1 (some (0, 1))
        (some BudgetAccountant.fresh) BudgetAccountant.fresh
        [(0, 0), (0, 0)]).defAcc.spent = [(1/2, 0), (1/2, 0)] ∧
    (quantileCall [DVal.num 0, DVal.num 1] [1/4, 3/4] 1 (some (0, 1))
        (some BudgetAccountant.fresh) BudgetAccountant.fresh
        [(0, 0), (0, 0)]).defAcc.total = (1, 0) ∧
    (quantileCall [DVal.num 0, DVal.num 1] [1/4, 3/4] 1 (some (0, 1))
        (some BudgetAccountant.fresh) BudgetAccountant.fresh
        [(0, 0), (0, 0)]).result = Except.ok [DVal.num 0, DVal.num 0] := by
  refine ⟨?_, by norm_num [BudgetAccountant.fresh, BudgetAccountant.total], ?_, ?_, ?_⟩ <;>
    norm_num [quantileCall, resolveBounds, quantileMulti, quantileResolved,
      quantileCore, BudgetAccountant.fresh, BudgetAccountant.checkOk,
      BudgetAccountant.total, BudgetAccountant.spend, dclip, dDiff, dsub,
      utilityList, Exponential.randomise, List.insertionSort,
      List.orderedInsert, dLE, dleB, dadd, dmul, DVal.isNan, Except.map,
      List.range_succ]

end Diffprivlib
